import Mathlib

/-!
Verification of torch_ecg against its natural-language specification.

The definitions below are shallow embeddings of the Python sources:

* `src/torch_ecg/models/cnn/densenet.py` (DenseBasicBlock, DenseBottleNeck,
  DenseMacroBlock, DenseTransition, DenseNet);
* `src/torch_ecg/cfg.py` (CFG.update);
* `src/torch_ecg/utils/download.py` (_is_within_directory, _safe_tar_extract);
* `src/torch_ecg/databases/physionet_databases/ltafdb.py` (load_rhythm_ann,
  load_beat_ann);
* `src/torch_ecg/databases/base.py` (PhysioNetDataBase.load_data, BeatAnn).

Tensors of shape (batch, channels, len) are modelled per batch element as a
list of channels (dim 1), so `torch.cat(..., dim=1)` is list append.
Third-party primitives (torch convolutions, wfdb readers, scipy resampling)
are opaque parameters; only the repository's own bookkeeping is embedded.
-/

namespace TorchEcg

/-! ## DenseNet channel bookkeeping (`densenet.py`) -/

/-- The input channel count that `DenseMacroBlock.__init__` (densenet.py
line 453) passes to the building block at position `idx`:
`self.__in_channels + idx * self.__growth_rates[idx]`. -/
def denseMacroBlockLayerInChannels (in_channels : Nat) (growth_rates : List Nat) (idx : Nat) : Nat :=
  in_channels + idx * growth_rates.getD idx 0

/-- The sequence of `(in_channels, growth_rate)` pairs with which
`DenseMacroBlock.__init__` constructs its building blocks (densenet.py
lines 449-462). -/
def denseMacroBlockBlocks (in_channels : Nat) (growth_rates : List Nat) : List (Nat × Nat) :=
  (List.range growth_rates.length).map
    (fun idx => (denseMacroBlockLayerInChannels in_channels growth_rates idx, growth_rates.getD idx 0))

/-- The output channel count reported by `compute_output_shape` of a single
building block (`DenseBasicBlock.compute_output_shape`, densenet.py lines
185-187, and `DenseBottleNeck.compute_output_shape`, lines 372-374):
`in_channels + growth_rate`. -/
def denseBlockOutputChannels (in_channels growth_rate : Nat) : Nat :=
  in_channels + growth_rate

/-- Modelled from the spec: `compute_sequential_output_shape` from
`torch_ecg.utils.utils_nn` (that module is not included in `src/`; only its
callers are).  Per the spec's description of output-shape propagation, it
chains `compute_output_shape` of the submodules in order, so for a sequence
of dense building blocks the channel count reported by the macro block is
the one reported by its last building block. -/
def sequentialOutputChannels (init : Nat) (blocks : List (Nat × Nat)) : Nat :=
  blocks.foldl (fun _ b => denseBlockOutputChannels b.1 b.2) init

/-- The output channel count reported by `DenseMacroBlock.compute_output_shape`
(densenet.py lines 468-472), obtained by chaining the building blocks
constructed in `DenseMacroBlock.__init__`. -/
def denseMacroBlockOutputChannels (in_channels : Nat) (growth_rates : List Nat) : Nat :=
  sequentialOutputChannels in_channels (denseMacroBlockBlocks in_channels growth_rates)

/-- The number of channels actually present in the tensor reaching building
block `idx` inside a dense macro block: the blocks concatenate their input
with `growth_rate` new channels (densenet.py lines 144-147 and 330-334), so
layer `idx` receives `in_channels` plus the sum of all preceding growth
rates. -/
def denseForwardChannels (in_channels : Nat) (growth_rates : List Nat) (idx : Nat) : Nat :=
  in_channels + (growth_rates.take idx).sum

/-- Claim C1: the claim states that the building block at position `idx` of a
`DenseMacroBlock` is constructed with input channel count
`c + g_0 + ... + g_(idx-1)` and that `compute_output_shape` reports
`c + g_0 + ... + g_(n-1)`.  The code (densenet.py line 453) instead uses
`c + idx * g_idx`.  At `c = 2`, `growth_rates = [2, 4]` the block at
position 1 is constructed with 6 input channels, while the accumulated
growth of the preceding layer gives 4 (which is also the channel count the
concatenation actually produces), and `compute_output_shape` reports 10
output channels instead of the claimed 2 + 2 + 4 = 8. -/
theorem denseMacroBlock_growth_accumulation_bug :
    denseMacroBlockBlocks 2 [2, 4] = [(2, 2), (6, 4)] ∧
    denseForwardChannels 2 [2, 4] 1 = 4 ∧
    denseMacroBlockLayerInChannels 2 [2, 4] 1 ≠ denseForwardChannels 2 [2, 4] 1 ∧
    denseMacroBlockOutputChannels 2 [2, 4] = 10 ∧
    denseMacroBlockOutputChannels 2 [2, 4] ≠ 2 + ([2, 4] : List Nat).sum := by
  decide

/-! ## DenseNet forward concatenation (`densenet.py`)

A tensor of shape `(batch, channels, len)` is modelled per batch element as
`List (List Int)`: the outer list indexes channels (dim 1), so
`torch.cat([input, new_features], dim=1)` is `input ++ new_features`.  The
convolutional sub-modules (`Conv_Bn_Activation` lives in
`torch_ecg/models/_nets.py`, outside `src/`) and dropout are opaque
functions on channel lists. -/

/-- Forward pass of `DenseBasicBlock` with `groups = 1` (densenet.py lines
128-165): `new_features = dropout (bac input)` followed by
`torch.cat([input, new_features], dim=1)`. -/
def denseBasicBlockForward (bac dropout : List (List Int) → List (List Int))
    (input : List (List Int)) : List (List Int) :=
  input ++ dropout (bac input)

/-- Forward pass of `DenseBottleNeck` with `groups = 1` and
`memory_efficient = False` (densenet.py lines 311-352):
`new_features = dropout (main_conv (neck_conv input))` followed by
`torch.cat([input, new_features], dim=1)`. -/
def denseBottleNeckForward (neck_conv main_conv dropout : List (List Int) → List (List Int))
    (input : List (List Int)) : List (List Int) :=
  input ++ dropout (main_conv (neck_conv input))

/-- Forward pass of a `DenseMacroBlock` (an `nn.Sequential` of building
blocks, densenet.py lines 449-462): the building blocks are applied in
order, each concatenating its input with its newly computed features
(`news` is the list of the per-layer new-feature computations). -/
def denseMacroBlockForward (news : List (List (List Int) → List (List Int)))
    (input : List (List Int)) : List (List Int) :=
  news.foldl (fun x f => x ++ f x) input

theorem denseMacroBlockForward_cons (f : List (List Int) → List (List Int))
    (news : List (List (List Int) → List (List Int))) (input : List (List Int)) :
    denseMacroBlockForward (f :: news) input = denseMacroBlockForward news (input ++ f input) := by
  simp [denseMacroBlockForward]

theorem denseMacroBlockForward_prefix (news : List (List (List Int) → List (List Int)))
    (input : List (List Int)) :
    input <+: denseMacroBlockForward news input := by
  induction news generalizing input with
  | nil => exact List.prefix_rfl
  | cons f rest ih =>
      rw [denseMacroBlockForward_cons]
      exact List.IsPrefix.trans (List.prefix_append input (f input)) (ih (input ++ f input))

/-- Claim C3: with `groups = 1` the output of `DenseBasicBlock.forward` and
of `DenseBottleNeck.forward` is the channel-dimension concatenation of the
unchanged input with the newly computed features, so the first
`in_channels` channels of the output equal the input; consequently, inside
a dense macro block, the output of the first `k` layers is a prefix of the
output of the first `k + j` layers, i.e. each layer's output contains the
outputs of all previous layers. -/
theorem denseBlock_forward_concatenates_input
    (bac dropout neck_conv main_conv : List (List Int) → List (List Int))
    (input : List (List Int)) (news : List (List (List Int) → List (List Int))) :
    (denseBasicBlockForward bac dropout input).take input.length = input ∧
    (denseBottleNeckForward neck_conv main_conv dropout input).take input.length = input ∧
    ∀ k : Nat, denseMacroBlockForward (news.take k) input <+: denseMacroBlockForward news input := by
  refine ⟨by simp [denseBasicBlockForward], by simp [denseBottleNeckForward], ?_⟩
  intro k
  induction news generalizing input k with
  | nil => simp [denseMacroBlockForward]
  | cons f rest ih =>
      cases k with
      | zero =>
          exact denseMacroBlockForward_prefix (f :: rest) input
      | succ k =>
          rw [List.take_succ_cons, denseMacroBlockForward_cons, denseMacroBlockForward_cons]
          exact ih (input ++ f input) k

/-! ## DenseNet output-shape refinement (`densenet.py`)

Shapes `(batch, channels, len)` are triples of naturals.  `Conv_Bn_Activation`
(module `torch_ecg/models/_nets.py`, not included in `src/`) is modelled
from the spec and the densenet.py docstrings: the dense building blocks
keep the sequence length unchanged (their documented output shape is
`(batch_size, n_channels, seq_len)`), produce the configured number of
output channels, and — this is the tensor framework's contract for a 1d
convolution — require the input to carry exactly the configured number of
input channels, failing otherwise. -/

/-- Shape semantics of a `Conv_Bn_Activation` used inside a dense building
block: requires `cin` input channels, produces `cout` channels, preserves
batch and length. -/
def convShape (cin cout : Nat) (s : Nat × Nat × Nat) : Option (Nat × Nat × Nat) :=
  if s.2.1 = cin then some (s.1, cout, s.2.2) else none

/-- Shape of the tensor returned by `DenseBasicBlock.forward` (densenet.py
lines 128-165): the `bac` convolution produces `growth` new channels, which
are concatenated onto the input along dim 1. -/
def denseBasicBlockForwardShape (cin growth : Nat) (s : Nat × Nat × Nat) :
    Option (Nat × Nat × Nat) :=
  (convShape cin growth s).map (fun ns => (s.1, s.2.1 + growth, ns.2.2))

/-- Shape of the tensor returned by `DenseMacroBlock.forward`: the building
blocks constructed by `DenseMacroBlock.__init__` are applied in order. -/
def denseMacroBlockForwardShape (in_channels : Nat) (growth_rates : List Nat)
    (s : Nat × Nat × Nat) : Option (Nat × Nat × Nat) :=
  (denseMacroBlockBlocks in_channels growth_rates).foldl
    (fun acc b => acc.bind (denseBasicBlockForwardShape b.1 b.2)) (some s)

/-- The full shape reported by `DenseMacroBlock.compute_output_shape`
(densenet.py lines 468-472). -/
def denseMacroBlockComputeOutputShape (in_channels : Nat) (growth_rates : List Nat)
    (seq_len batch_size : Nat) : Nat × Nat × Nat :=
  (batch_size, denseMacroBlockOutputChannels in_channels growth_rates, seq_len)

/-- Claim C4: the claim states that for every DenseNet component, on an
input whose channel count matches the component's configured input channel
count, `compute_output_shape` equals the actual shape of the tensor
returned by `forward`.  For the `DenseMacroBlock` constructed with
`in_channels = 2` and `growth_rates = [2, 4]`, on an input of shape
`(1, 2, 100)`, `forward` fails (the second building block's convolution is
configured for 6 input channels — densenet.py line 453 — but the
concatenation hands it only 4), while `compute_output_shape` reports
`(1, 10, 100)`. -/
theorem denseMacroBlock_shape_refinement_bug :
    denseMacroBlockForwardShape 2 [2, 4] (1, 2, 100) = none ∧
    denseMacroBlockComputeOutputShape 2 [2, 4] 100 1 = (1, 10, 100) := by
  decide

/-! ## CFG.update (`cfg.py`)

A `CFG` (an `EasyDict` subclass) is modelled as an association list from
string keys to values, where a value is either an atom or a nested mapping.
`EasyDict` converts nested plain dicts to the subclass on assignment, so
every mapping stored inside a `CFG` is again a `CFG` and carries the
overridden recursive `update`.  Python dict semantics: overwriting a key
keeps its position, a new key is appended; iteration follows that order.
`CFG.update` (cfg.py lines 33-44) iterates over the new mapping's keys; for
a key whose new value is a mapping and which is already present it calls
`self[k].update(new[k])` (which raises `AttributeError` when `self[k]` is
not a mapping — modelled as `none`), otherwise it assigns the new value. -/

/-- A configuration value: an atom or a nested mapping. -/
inductive CfgVal where
  | atom : Int → CfgVal
  | node : List (String × CfgVal) → CfgVal

/-- Dictionary lookup (first binding wins; Python dicts hold each key once). -/
def cfgFind : List (String × CfgVal) → String → Option CfgVal
  | [], _ => none
  | (k, v) :: rest, key => if k = key then some v else cfgFind rest key

/-- Dictionary assignment: overwrite in place, or append a fresh key. -/
def cfgSet : List (String × CfgVal) → String → CfgVal → List (String × CfgVal)
  | [], key, v => [(key, v)]
  | (k, w) :: rest, key, v =>
      if k = key then (k, v) :: rest else (k, w) :: cfgSet rest key v

/-- The body of `CFG.update` (cfg.py lines 39-44): fold the bindings of the
new mapping into `self`.  A `node` value meeting an existing `node` is
merged recursively; a `node` value meeting an existing `atom` makes the
Python code call `.update` on a non-mapping, which raises (`none`); any
other binding is assigned with `setattr`. -/
def cfgUpdate (self : List (String × CfgVal)) : List (String × CfgVal) → Option (List (String × CfgVal))
  | [] => some self
  | (k, v) :: rest =>
      match v, cfgFind self k with
      | CfgVal.node nv, some (CfgVal.node ov) =>
          match cfgUpdate ov nv with
          | some merged => cfgUpdate (cfgSet self k (CfgVal.node merged)) rest
          | none => none
      | CfgVal.node _, some (CfgVal.atom _) => none
      | _, _ => cfgUpdate (cfgSet self k v) rest
termination_by l => sizeOf l
decreasing_by all_goals simp_wf <;> omega

theorem cfgFind_cfgSet (l : List (String × CfgVal)) (k : String) (v : CfgVal) (key : String) :
    cfgFind (cfgSet l k v) key = if k = key then some v else cfgFind l key := by
  induction l with
  | nil =>
      by_cases h : k = key <;> simp [cfgSet, cfgFind, h]
  | cons p rest ih =>
      obtain ⟨k1, v1⟩ := p
      by_cases h1 : k1 = k
      · subst h1
        by_cases h2 : k1 = key <;> simp [cfgSet, cfgFind, h2]
      · by_cases h2 : k1 = key
        · subst h2
          have : ¬ k = k1 := fun h => h1 h.symm
          simp [cfgSet, cfgFind, h1, this]
        · simp [cfgSet, cfgFind, h1, h2, ih]

theorem cfgUpdate_nil (self : List (String × CfgVal)) : cfgUpdate self [] = some self := by
  simp [cfgUpdate]

theorem cfgUpdate_cons_atom (self : List (String × CfgVal)) (k : String) (a : Int)
    (rest : List (String × CfgVal)) :
    cfgUpdate self ((k, CfgVal.atom a) :: rest) = cfgUpdate (cfgSet self k (CfgVal.atom a)) rest := by
  rw [cfgUpdate.eq_def]

theorem cfgUpdate_cons_node_none (self : List (String × CfgVal)) (k : String)
    (nv rest : List (String × CfgVal)) (h : cfgFind self k = none) :
    cfgUpdate self ((k, CfgVal.node nv) :: rest) = cfgUpdate (cfgSet self k (CfgVal.node nv)) rest := by
  rw [cfgUpdate.eq_def]
  simp only [h]

theorem cfgUpdate_cons_node_atom (self : List (String × CfgVal)) (k : String) (a : Int)
    (nv rest : List (String × CfgVal)) (h : cfgFind self k = some (CfgVal.atom a)) :
    cfgUpdate self ((k, CfgVal.node nv) :: rest) = none := by
  rw [cfgUpdate.eq_def]
  simp only [h]

theorem cfgUpdate_cons_node_node (self : List (String × CfgVal)) (k : String)
    (nv ov rest : List (String × CfgVal)) (h : cfgFind self k = some (CfgVal.node ov)) :
    cfgUpdate self ((k, CfgVal.node nv) :: rest) =
      match cfgUpdate ov nv with
      | some merged => cfgUpdate (cfgSet self k (CfgVal.node merged)) rest
      | none => none := by
  rw [cfgUpdate.eq_def]
  simp only [h]

theorem cfgFind_eq_none_of_not_mem (l : List (String × CfgVal)) (key : String)
    (h : cfgFind l key = none) : ∀ p ∈ l, p.1 ≠ key := by
  induction l with
  | nil => intro p hp; cases hp
  | cons q rest ih =>
      intro p hp
      rw [cfgFind] at h
      by_cases hq : q.1 = key
      · rw [if_pos hq] at h; cases h
      · rw [if_neg hq] at h
        cases hp with
        | head => exact hq
        | tail _ hmem => exact ih h p hmem

theorem cfgUpdate_find_untouched (new : List (String × CfgVal)) :
    ∀ (self out : List (String × CfgVal)), cfgUpdate self new = some out →
    ∀ key : String, (∀ p ∈ new, p.1 ≠ key) → cfgFind out key = cfgFind self key := by
  induction new with
  | nil =>
      intro self out h key _
      rw [cfgUpdate_nil] at h
      cases h
      rfl
  | cons p rest ih =>
      obtain ⟨k, v⟩ := p
      intro self out h key hkey
      have hk : k ≠ key := hkey (k, v) (List.mem_cons_self _ _)
      have hrest : ∀ q ∈ rest, q.1 ≠ key := fun q hq => hkey q (List.mem_cons_of_mem _ hq)
      have hset : ∀ w : CfgVal, cfgFind (cfgSet self k w) key = cfgFind self key := by
        intro w
        rw [cfgFind_cfgSet]
        simp [hk]
      cases v with
      | atom a =>
          rw [cfgUpdate_cons_atom] at h
          rw [ih _ _ h key hrest, hset]
      | node nv =>
          cases hfind : cfgFind self k with
          | none =>
              rw [cfgUpdate_cons_node_none self k nv rest hfind] at h
              rw [ih _ _ h key hrest, hset]
          | some w =>
              cases w with
              | atom a =>
                  rw [cfgUpdate_cons_node_atom self k a nv rest hfind] at h
                  cases h
              | node ov =>
                  rw [cfgUpdate_cons_node_node self k nv ov rest hfind] at h
                  cases hm : cfgUpdate ov nv with
                  | none => rw [hm] at h; cases h
                  | some merged =>
                      rw [hm] at h
                      rw [ih _ _ h key hrest, hset]

/-- Outcome of a single binding `(key, v)` of the new mapping after
`CFG.update`: an atom is assigned; a mapping is assigned when the key was
absent, and recursively merged when the key held a mapping. -/
def cfgBindingOutcome (self out : List (String × CfgVal)) (key : String) : CfgVal → Prop
  | CfgVal.atom a => cfgFind out key = some (CfgVal.atom a)
  | CfgVal.node nv =>
      (cfgFind self key = none ∧ cfgFind out key = some (CfgVal.node nv)) ∨
      (∃ ov2 m2, cfgFind self key = some (CfgVal.node ov2) ∧ cfgUpdate ov2 nv = some m2 ∧
        cfgFind out key = some (CfgVal.node m2))

theorem cfgUpdate_find_binding (new : List (String × CfgVal)) :
    ∀ (self out : List (String × CfgVal)), cfgUpdate self new = some out →
    (new.map Prod.fst).Nodup →
    ∀ (key : String) (v : CfgVal), cfgFind new key = some v →
    cfgBindingOutcome self out key v := by
  induction new with
  | nil =>
      intro self out _ _ key v hfind
      cases hfind
  | cons p rest ih =>
      obtain ⟨k, v0⟩ := p
      intro self out h hnodup key v hfind
      have hnodupc : (k :: rest.map Prod.fst).Nodup := by simpa using hnodup
      have hnotin : ∀ q ∈ rest, q.1 ≠ k := by
        intro q hq hqk
        have h1 : q.1 ∈ rest.map Prod.fst := List.mem_map_of_mem Prod.fst hq
        rw [hqk] at h1
        exact (List.nodup_cons.mp hnodupc).1 h1
      have hnodup2 : (rest.map Prod.fst).Nodup := (List.nodup_cons.mp hnodupc).2
      rw [cfgFind] at hfind
      by_cases hkey : k = key
      · subst hkey
        rw [if_pos rfl] at hfind
        have hv : v0 = v := by injection hfind
        subst hv
        cases v0 with
        | atom a =>
            rw [cfgUpdate_cons_atom] at h
            have hout := cfgUpdate_find_untouched rest _ _ h k hnotin
            rw [cfgBindingOutcome, hout, cfgFind_cfgSet]
            simp
        | node nv =>
            cases hfind2 : cfgFind self k with
            | none =>
                rw [cfgUpdate_cons_node_none self k nv rest hfind2] at h
                have hout := cfgUpdate_find_untouched rest _ _ h k hnotin
                rw [cfgBindingOutcome]
                left
                refine ⟨hfind2, ?_⟩
                rw [hout, cfgFind_cfgSet]
                simp
            | some w =>
                cases w with
                | atom a =>
                    rw [cfgUpdate_cons_node_atom self k a nv rest hfind2] at h
                    cases h
                | node ov =>
                    rw [cfgUpdate_cons_node_node self k nv ov rest hfind2] at h
                    cases hm : cfgUpdate ov nv with
                    | none => rw [hm] at h; cases h
                    | some merged =>
                        rw [hm] at h
                        have hout := cfgUpdate_find_untouched rest _ _ h k hnotin
                        rw [cfgBindingOutcome]
                        right
                        refine ⟨ov, merged, hfind2, hm, ?_⟩
                        rw [hout, cfgFind_cfgSet]
                        simp
      · rw [if_neg hkey] at hfind
        have hself : ∀ w : CfgVal,
            cfgBindingOutcome (cfgSet self k w) out key v → cfgBindingOutcome self out key v := by
          intro w ho
          cases v with
          | atom a => exact ho
          | node nv =>
              rw [cfgBindingOutcome] at ho ⊢
              rwa [cfgFind_cfgSet, if_neg hkey] at ho
        cases v0 with
        | atom a =>
            rw [cfgUpdate_cons_atom] at h
            exact hself _ (ih _ _ h hnodup2 key v hfind)
        | node nv =>
            cases hfind2 : cfgFind self k with
            | none =>
                rw [cfgUpdate_cons_node_none self k nv rest hfind2] at h
                exact hself _ (ih _ _ h hnodup2 key v hfind)
            | some w =>
                cases w with
                | atom a =>
                    rw [cfgUpdate_cons_node_atom self k a nv rest hfind2] at h
                    cases h
                | node ov =>
                    rw [cfgUpdate_cons_node_node self k nv ov rest hfind2] at h
                    cases hm : cfgUpdate ov nv with
                    | none => rw [hm] at h; cases h
                    | some merged =>
                        rw [hm] at h
                        exact hself _ (ih _ _ h hnodup2 key v hfind)

/-- Claim C10: calling `c.update(new)` where `new` holds a single key `k`
bound to a mapping `m`, and `c` previously held a mapping `ov` at `k`,
merges recursively instead of replacing wholesale: the update succeeds and
stores at `k` the recursive merge `merged` of `ov` with `m`; every other
key of `c` is unchanged; inside the merge, keys absent from `m` keep their
old values, atom entries of `m` overwrite, and mapping entries of `m` are
recursively merged with an existing mapping (or inserted when absent). -/
theorem cfg_update_deep_merges (c : List (String × CfgVal)) (k : String)
    (m ov merged : List (String × CfgVal))
    (hk : cfgFind c k = some (CfgVal.node ov))
    (hnodup : (m.map Prod.fst).Nodup)
    (hm : cfgUpdate ov m = some merged) :
    cfgUpdate c [(k, CfgVal.node m)] = some (cfgSet c k (CfgVal.node merged)) ∧
    cfgFind (cfgSet c k (CfgVal.node merged)) k = some (CfgVal.node merged) ∧
    (∀ key, key ≠ k → cfgFind (cfgSet c k (CfgVal.node merged)) key = cfgFind c key) ∧
    (∀ key, cfgFind m key = none → cfgFind merged key = cfgFind ov key) ∧
    (∀ key v, cfgFind m key = some v → cfgBindingOutcome ov merged key v) := by
  refine ⟨?_, ?_, ?_, ?_, ?_⟩
  · rw [cfgUpdate_cons_node_node c k m ov [] hk, hm]
    exact cfgUpdate_nil _
  · rw [cfgFind_cfgSet]; simp
  · intro key hkey
    rw [cfgFind_cfgSet, if_neg (fun h => hkey h.symm)]
  · intro key hnone
    exact cfgUpdate_find_untouched m ov merged hm key (cfgFind_eq_none_of_not_mem m key hnone)
  · intro key v hv
    exact cfgUpdate_find_binding m ov merged hm hnodup key v hv

/-- Witness for C10, instantiating the docstring example of `CFG`
(cfg.py lines 25-29): `c = CFG(hehe=dict(a=1, b=2))`, then
`c.update(hehe=dict(a=-1))` yields `c.hehe = dict(a=-1, b=2)`. -/
theorem cfg_update_deep_merges_witness :
    cfgUpdate [("hehe", CfgVal.node [("a", CfgVal.atom 1), ("b", CfgVal.atom 2)])]
        [("hehe", CfgVal.node [("a", CfgVal.atom (-1))])] =
      some [("hehe", CfgVal.node [("a", CfgVal.atom (-1)), ("b", CfgVal.atom 2)])] ∧
    cfgFind [("a", CfgVal.atom (-1)), ("b", CfgVal.atom 2)] "b" = some (CfgVal.atom 2) := by
  have h := cfg_update_deep_merges
    [("hehe", CfgVal.node [("a", CfgVal.atom 1), ("b", CfgVal.atom 2)])] "hehe"
    [("a", CfgVal.atom (-1))] [("a", CfgVal.atom 1), ("b", CfgVal.atom 2)]
    [("a", CfgVal.atom (-1)), ("b", CfgVal.atom 2)]
    (by simp [cfgFind])
    (by simp)
    (by rw [cfgUpdate_cons_atom, cfgUpdate_nil]; simp [cfgSet])
  refine ⟨?_, ?_⟩
  · rw [h.1]
    simp [cfgSet]
  · have hb := h.2.2.2.1 "b" (by simp [cfgFind])
    rw [hb]
    simp [cfgFind]

/-! ## Safe tar extraction (`utils/download.py`)

POSIX paths are modelled as strings; the destination directory is an
absolute path (as `os.path.abspath` of the extraction root).  `os.path.join`
appends a relative member name with a separator; `os.path.abspath` resolves
`.` and `..` components lexically (`..` at the root stays at the root);
`os.path.commonprefix` is the character-level longest common prefix of the
two strings — exactly the primitive `_is_within_directory` (download.py
lines 242-264) relies on. -/

/-- Split a list of characters at the separator character. -/
def splitOnSlash : List Char → List (List Char)
  | [] => [[]]
  | c :: rest =>
      if c = '/' then [] :: splitOnSlash rest
      else
        match splitOnSlash rest with
        | [] => [[c]]
        | g :: gs => (c :: g) :: gs

/-- Split a path into its non-empty components. -/
def pathComponents (s : String) : List String :=
  ((splitOnSlash s.data).map String.mk).filter (fun c => c ≠ "")

/-- Lexical normalization of an absolute path's components, as performed by
`os.path.abspath` / `os.path.normpath`: drop `.`, pop on `..`. -/
def normComponents (cs : List String) : List String :=
  cs.foldl (fun acc c => if c = "." then acc else if c = ".." then acc.dropLast else acc ++ [c]) []

/-- Model of `os.path.abspath` for an absolute input path. -/
def abspath (s : String) : String :=
  "/" ++ String.intercalate "/" (normComponents (pathComponents s))

/-- Model of `os.path.join dir name` for the shapes used in
`_safe_tar_extract`: an absolute member name wins, otherwise it is appended
to the directory with a separator. -/
def pathJoin (dir name : String) : String :=
  if List.isPrefixOf "/".data name.data then name else dir ++ "/" ++ name

/-- Character-level longest common prefix, as `os.path.commonprefix` for
two strings. -/
def commonPrefixChars : List Char → List Char → List Char
  | a :: as, b :: bs => if a = b then a :: commonPrefixChars as bs else []
  | _, _ => []

/-- Model of `os.path.commonprefix([a, b])`. -/
def commonPrefixStr (a b : String) : String :=
  String.mk (commonPrefixChars a.data b.data)

/-- Embedding of `_is_within_directory` (download.py lines 242-264):
`os.path.commonprefix([abspath dir, abspath target]) == abspath dir`. -/
def isWithinDirectory (directory target : String) : Bool :=
  commonPrefixStr (abspath directory) (abspath target) = abspath directory

/-- The property `_is_within_directory` is meant to decide: the resolved
target is the resolved directory itself or lies strictly below it. -/
def resolvedWithin (directory target : String) : Bool :=
  abspath target = abspath directory || List.isPrefixOf (abspath directory ++ "/").data (abspath target).data

/-- Embedding of `_safe_tar_extract` (download.py lines 267-302): every
member's joined path is checked with `_is_within_directory` before any
extraction; if some member fails the check an exception is raised and
nothing is extracted, otherwise all members are extracted. -/
def safeTarExtract (members : List String) (dst_dir : String) : Except String (List String) :=
  if members.all (fun m => isWithinDirectory dst_dir (pathJoin dst_dir m)) then
    Except.ok members
  else
    Except.error "Attempted Path Traversal in Tar File"

/-- Claim C9: the claim states that members are extracted only when every
member's resolved path stays within the destination directory.  The member
named `../bc` of a tar extracted to `/a/b` resolves to `/a/bc`, outside
`/a/b`; yet `_is_within_directory` accepts it (the character-level
`os.path.commonprefix` of `/a/b` and `/a/bc` is `/a/b`) and
`_safe_tar_extract` extracts it instead of raising. -/
theorem safeTarExtract_path_traversal_bug :
    abspath (pathJoin "/a/b" "../bc") = "/a/bc" ∧
    resolvedWithin "/a/b" (pathJoin "/a/b" "../bc") = false ∧
    isWithinDirectory "/a/b" (pathJoin "/a/b" "../bc") = true ∧
    safeTarExtract ["../bc"] "/a/b" = Except.ok ["../bc"] := by
  refine ⟨by rfl, by rfl, by rfl, by rfl⟩

/-! ## LTAFDB rhythm annotations (`ltafdb.py`)

The wfdb annotation file (a third-party format) is modelled by its two
relevant attributes: the list of annotated sample indices
(`wfdb_ann.sample`, non-decreasing and bounded by the record length) and
the parallel list of auxiliary notes (`wfdb_ann.aux_note`). -/

/-- The rhythm classes recognised by `LTAFDB` (ltafdb.py lines 99-110). -/
def rhythm_types : List String :=
  ["(N", "(AB", "(AFIB", "(B", "(IVR", "(SBR", "(SVTA", "(T", "(VT", "NOISE"]

/-- The Python `rhythm.replace` call that drops the `(` marker from a
rhythm label. -/
def stripParens (s : String) : String :=
  String.mk (s.data.filter (fun c => c ≠ '('))

/-- The rhythm label-to-code mapping `rhythm_types_map` (ltafdb.py
line 111): label with `(` stripped, mapped to its index in
`rhythm_types`. -/
def rhythm_types_map : List (String × Nat) :=
  rhythm_types.enum.map (fun p => (stripParens p.2, p.1))

/-- Code of a rhythm label under `rhythm_types_map`. -/
def rhythmCode (k : String) : Nat :=
  ((rhythm_types_map.find? (fun p => p.1 = k)).map Prod.snd).getD 0

/-- The scan over `zip(critical_points, aux_note)` in `load_rhythm_ann`
(ltafdb.py lines 293-300): notes that are not rhythm types are skipped;
each rhythm change closes the interval of the current rhythm at the
annotated sample and opens a new one there.  Returns the closed intervals
as `(label, start, end)` triples in creation order, together with the
final `start` and `current_rhythm`. -/
def buildRhythmLoop : List (Nat × String) → Nat → String → List (String × Nat × Nat) × Nat × String
  | [], start, current => ([], start, current)
  | (idx, rhythm) :: rest, start, current =>
      if rhythm ∈ rhythm_types then
        let r := buildRhythmLoop rest idx (stripParens rhythm)
        ((current, start, idx) :: r.1, r.2)
      else
        buildRhythmLoop rest start current

/-- The full interval list built by `load_rhythm_ann` on a cache miss
(ltafdb.py lines 290-304): the loop intervals, the closing interval of the
final rhythm ending at the last annotated sample, and the trailing
`NOISE` interval up to `sig_len`. -/
def rhythmIntervalList (pairs : List (Nat × String)) (lastCp sigLen : Nat) :
    List (String × Nat × Nat) :=
  (buildRhythmLoop pairs 0 "NOISE").1 ++
    [((buildRhythmLoop pairs 0 "NOISE").2.2, (buildRhythmLoop pairs 0 "NOISE").2.1, lastCp),
     ("NOISE", lastCp, sigLen)]

/-- The full-record interval scan of `load_rhythm_ann`:
`critical_points[-1]` raises on an annotation file with no annotated
sample, hence the `Option`. -/
def loadRhythmIntervals (samples : List Nat) (aux_note : List String) (sigLen : Nat) :
    Option (List (String × Nat × Nat)) :=
  match samples.getLast? with
  | none => none
  | some lastCp => some (rhythmIntervalList (samples.zip aux_note) lastCp sigLen)

/-- A list of labelled intervals chains from `a` to `b`: each interval
starts where the previous one ended, the first at `a`, the last ending at
`b`. -/
def chainedFrom : Nat → List (String × Nat × Nat) → Nat → Prop
  | a, [], b => a = b
  | a, itv :: rest, b => itv.2.1 = a ∧ chainedFrom itv.2.2 rest b

/-- Every interval of the list has its start bounded by its end. -/
def intervalsWF (l : List (String × Nat × Nat)) : Prop :=
  ∀ itv ∈ l, itv.2.1 ≤ itv.2.2

theorem chainedFrom_append {a m b : Nat} {l1 l2 : List (String × Nat × Nat)}
    (h1 : chainedFrom a l1 m) (h2 : chainedFrom m l2 b) : chainedFrom a (l1 ++ l2) b := by
  induction l1 generalizing a with
  | nil => rw [chainedFrom] at h1; subst h1; exact h2
  | cons itv rest ih =>
      rw [chainedFrom] at h1
      exact ⟨h1.1, ih h1.2⟩

theorem chainedFrom_le {l : List (String × Nat × Nat)} {a b : Nat}
    (h : chainedFrom a l b) (hwf : intervalsWF l) : a ≤ b := by
  induction l generalizing a with
  | nil => rw [chainedFrom] at h; exact h.le
  | cons itv rest ih =>
      rw [chainedFrom] at h
      have h1 : a ≤ itv.2.2 := h.1 ▸ hwf itv (List.mem_cons_self _ _)
      exact h1.trans (ih h.2 (fun q hq => hwf q (List.mem_cons_of_mem _ hq)))

theorem chainedFrom_bounds {l : List (String × Nat × Nat)} {a b : Nat}
    (h : chainedFrom a l b) (hwf : intervalsWF l) :
    ∀ itv ∈ l, a ≤ itv.2.1 ∧ itv.2.2 ≤ b := by
  induction l generalizing a with
  | nil => intro itv hitv; cases hitv
  | cons q rest ih =>
      rw [chainedFrom] at h
      have hwfr : intervalsWF rest := fun r hr => hwf r (List.mem_cons_of_mem _ hr)
      intro itv hitv
      cases hitv with
      | head =>
          exact ⟨h.1.ge, chainedFrom_le h.2 hwfr⟩
      | tail _ hmem =>
          have := ih h.2 hwfr itv hmem
          exact ⟨(h.1 ▸ (hwf q (List.mem_cons_self _ _))).trans this.1, this.2⟩

theorem chainedFrom_pairwise {l : List (String × Nat × Nat)} {a b : Nat}
    (h : chainedFrom a l b) (hwf : intervalsWF l) :
    l.Pairwise (fun p q => p.2.2 ≤ q.2.1) := by
  induction l generalizing a with
  | nil => exact List.Pairwise.nil
  | cons q rest ih =>
      rw [chainedFrom] at h
      have hwfr : intervalsWF rest := fun r hr => hwf r (List.mem_cons_of_mem _ hr)
      exact List.Pairwise.cons
        (fun r hr => (chainedFrom_bounds h.2 hwfr r hr).1) (ih h.2 hwfr)

theorem chainedFrom_chain {l : List (String × Nat × Nat)} {a b : Nat}
    (h : chainedFrom a l b) : List.Chain' (fun p q => p.2.2 = q.2.1) l := by
  induction l generalizing a with
  | nil => exact List.chain'_nil
  | cons q rest ih =>
      rw [chainedFrom] at h
      cases rest with
      | nil => simp
      | cons r rest2 =>
          rw [chainedFrom] at h
          exact List.Chain'.cons h.2.1.symm (ih (a := q.2.2) ⟨h.2.1, h.2.2⟩)

/-- The Boolean test for a half-open labelled interval containing `x`. -/
def coversPt (x : Nat) (itv : String × Nat × Nat) : Bool :=
  decide (itv.2.1 ≤ x) && decide (x < itv.2.2)

theorem chainedFrom_countP_zero {l : List (String × Nat × Nat)} {a b x : Nat}
    (h : chainedFrom a l b) (hwf : intervalsWF l) (hx : x < a) :
    l.countP (coversPt x) = 0 := by
  induction l generalizing a with
  | nil => rfl
  | cons q rest ih =>
      rw [chainedFrom] at h
      have hwfr : intervalsWF rest := fun r hr => hwf r (List.mem_cons_of_mem _ hr)
      have hq : coversPt x q = false := by
        simp only [coversPt, Bool.and_eq_false_iff, decide_eq_false_iff_not]
        left
        rw [h.1]
        omega
      rw [List.countP_cons, hq]
      have hrest : rest.countP (coversPt x) = 0 :=
        ih h.2 hwfr (lt_of_lt_of_le (h.1 ▸ hx) (hwf q (List.mem_cons_self _ _)))
      simp [hrest]

theorem chainedFrom_countP_one {l : List (String × Nat × Nat)} {a b x : Nat}
    (h : chainedFrom a l b) (hwf : intervalsWF l) (hx1 : a ≤ x) (hx2 : x < b) :
    l.countP (coversPt x) = 1 := by
  induction l generalizing a with
  | nil =>
      rw [chainedFrom] at h
      omega
  | cons q rest ih =>
      rw [chainedFrom] at h
      have hwfr : intervalsWF rest := fun r hr => hwf r (List.mem_cons_of_mem _ hr)
      rw [List.countP_cons]
      by_cases hcase : x < q.2.2
      · have hq : coversPt x q = true := by simp [coversPt, h.1, hx1, hcase]
        have hrest : rest.countP (coversPt x) = 0 :=
          chainedFrom_countP_zero h.2 hwfr hcase
        simp [hq, hrest]
      · have hq : coversPt x q = false := by simp [coversPt, hcase]
        have hrest : rest.countP (coversPt x) = 1 :=
          ih h.2 hwfr (le_of_not_lt hcase)
        simp [hq, hrest]

theorem sorted_le_getLast {l : List Nat} (h : l.Sorted (· ≤ ·)) {x : Nat} (hx : x ∈ l)
    (hne : l ≠ []) : x ≤ l.getLast hne := by
  induction l with
  | nil => cases hx
  | cons a rest ih =>
      rcases List.sorted_cons.mp h with ⟨ha, hrest⟩
      cases rest with
      | nil =>
          cases hx with
          | head => simp [List.getLast]
          | tail _ hmem => cases hmem
      | cons b rest2 =>
          rw [List.getLast_cons (by simp)]
          cases hx with
          | head => exact ha _ (List.getLast_mem _)
          | tail _ hmem => exact ih hrest hmem (by simp)

theorem buildRhythmLoop_spec (pairs : List (Nat × String)) :
    ∀ (start : Nat) (cur : String),
    (pairs.map Prod.fst).Sorted (· ≤ ·) →
    (∀ p ∈ pairs, start ≤ p.1) →
    chainedFrom start (buildRhythmLoop pairs start cur).1 (buildRhythmLoop pairs start cur).2.1 ∧
    intervalsWF (buildRhythmLoop pairs start cur).1 ∧
    ((buildRhythmLoop pairs start cur).2.1 = start ∨
      (buildRhythmLoop pairs start cur).2.1 ∈ pairs.map Prod.fst) := by
  induction pairs with
  | nil =>
      intro start cur _ _
      exact ⟨rfl, fun itv h => absurd h (List.not_mem_nil itv), Or.inl rfl⟩
  | cons p rest ih =>
      intro start cur hsorted hstart
      obtain ⟨idx, rhythm⟩ := p
      have hsorted2 : (rest.map Prod.fst).Sorted (· ≤ ·) :=
        (List.sorted_cons.mp (by simpa using hsorted)).2
      have hidx : ∀ q ∈ rest, idx ≤ q.1 := by
        intro q hq
        exact (List.sorted_cons.mp (by simpa using hsorted)).1 q.1
          (List.mem_map_of_mem Prod.fst hq)
      by_cases hval : rhythm ∈ rhythm_types
      · have hrec := ih idx (stripParens rhythm) hsorted2 hidx
        rw [buildRhythmLoop, if_pos hval]
        refine ⟨⟨rfl, hrec.1⟩, ?_, ?_⟩
        · intro itv hitv
          cases hitv with
          | head => exact hstart (idx, rhythm) (List.mem_cons_self _ _)
          | tail _ hmem => exact hrec.2.1 itv hmem
        · rcases hrec.2.2 with heq | hmem
          · exact Or.inr (by simp [heq])
          · exact Or.inr (by simp; right; simpa using hmem)
      · have hrec := ih start cur hsorted2 (fun q hq => hstart q (List.mem_cons_of_mem _ hq))
        rw [buildRhythmLoop, if_neg hval]
        refine ⟨hrec.1, hrec.2.1, ?_⟩
        rcases hrec.2.2 with heq | hmem
        · exact Or.inl heq
        · exact Or.inr (by simp; right; simpa using hmem)

theorem loadRhythmIntervals_chained (samples : List Nat) (aux_note : List String)
    (sigLen : Nat) (L : List (String × Nat × Nat))
    (hlen : samples.length = aux_note.length)
    (hsorted : samples.Sorted (· ≤ ·))
    (hmax : ∀ s ∈ samples, s ≤ sigLen)
    (hL : loadRhythmIntervals samples aux_note sigLen = some L) :
    chainedFrom 0 L sigLen ∧ intervalsWF L ∧
    ∃ lastCp, samples.getLast? = some lastCp ∧
      L.getLast? = some ("NOISE", lastCp, sigLen) := by
  cases hgl : samples.getLast? with
  | none => rw [loadRhythmIntervals, hgl] at hL; cases hL
  | some lastCp =>
      rw [loadRhythmIntervals, hgl] at hL
      have hne : samples ≠ [] := by
        intro h
        rw [h] at hgl
        cases hgl
      have hlast : samples.getLast hne = lastCp := by
        have h2 : samples.getLast? = some (samples.getLast hne) :=
          List.getLast?_eq_getLast samples hne
        rw [hgl] at h2
        injection h2 with h3
        exact h3.symm
      have hmapfst : (samples.zip aux_note).map Prod.fst = samples :=
        List.map_fst_zip samples aux_note (le_of_eq hlen)
      have hspec := buildRhythmLoop_spec (samples.zip aux_note) 0 "NOISE"
        (by rw [hmapfst]; exact hsorted) (fun p _ => Nat.zero_le _)
      set r := buildRhythmLoop (samples.zip aux_note) 0 "NOISE" with hr
      have hflast : r.2.1 ≤ lastCp := by
        rcases hspec.2.2 with heq | hmem
        · rw [heq]
          have : lastCp ∈ samples := by
            rw [← hlast]
            exact List.getLast_mem hne
          exact Nat.zero_le _
        · rw [hmapfst] at hmem
          rw [← hlast]
          exact sorted_le_getLast hsorted hmem hne
      have hlcp : lastCp ≤ sigLen := by
        apply hmax
        rw [← hlast]
        exact List.getLast_mem hne
      injection hL with hL2
      subst hL2
      refine ⟨?_, ?_, lastCp, rfl, ?_⟩
      · exact chainedFrom_append hspec.1 ⟨rfl, rfl, rfl⟩
      · intro itv hitv
        rw [rhythmIntervalList, ← hr] at hitv
        rcases List.mem_append.mp hitv with hmem | hmem
        · exact hspec.2.1 itv hmem
        · rcases List.mem_cons.mp hmem with h1 | h1
          · rw [h1]
            exact hflast
          · rcases List.mem_cons.mp h1 with h2 | h2
            · rw [h2]
              exact hlcp
            · cases h2
      · rw [rhythmIntervalList, ← hr, List.getLast?_append]
        simp

/-- Claim C8: on an annotation file with at least one annotated sample, the
intervals built by the full-record scan of `load_rhythm_ann`, read as
half-open intervals, tile the record: the first starts at 0, each starts
where the previous one ends, the final one is labelled `NOISE` and ends at
`sig_len`, they are pairwise non-overlapping, and every sample index below
`sig_len` is contained in exactly one of them. -/
theorem load_rhythm_ann_intervals_tile (samples : List Nat) (aux_note : List String)
    (sigLen : Nat) (L : List (String × Nat × Nat))
    (hlen : samples.length = aux_note.length)
    (hsorted : samples.Sorted (· ≤ ·))
    (hmax : ∀ s ∈ samples, s ≤ sigLen)
    (hL : loadRhythmIntervals samples aux_note sigLen = some L) :
    (∃ first rest, L = first :: rest ∧ first.2.1 = 0) ∧
    List.Chain' (fun p q => p.2.2 = q.2.1) L ∧
    (∃ last, L.getLast? = some last ∧ last.1 = "NOISE" ∧ last.2.2 = sigLen) ∧
    L.Pairwise (fun p q => p.2.2 ≤ q.2.1) ∧
    (∀ x, x < sigLen → L.countP (coversPt x) = 1) := by
  obtain ⟨hchain, hwf, lastCp, hgl, hlast⟩ :=
    loadRhythmIntervals_chained samples aux_note sigLen L hlen hsorted hmax hL
  refine ⟨?_, chainedFrom_chain hchain, ⟨_, hlast, rfl, rfl⟩,
    chainedFrom_pairwise hchain hwf, ?_⟩
  · cases hc : L with
    | nil =>
        rw [hc] at hlast
        cases hlast
    | cons first rest =>
        rw [hc] at hchain
        exact ⟨first, rest, rfl, hchain.1⟩
  · intro x hx
    exact chainedFrom_countP_one hchain hwf (Nat.zero_le x) hx

/-- Witness for C8 on a concrete annotation file: samples `[3, 5, 9]` with
notes `["(AFIB", "x", "(N"]` and record length 12 produce the tiling
`NOISE [0,3), AFIB [3,9), N [9,9), NOISE [9,12)`. -/
theorem load_rhythm_ann_intervals_tile_witness :
    ([("NOISE", 0, 3), ("AFIB", 3, 9), ("N", 9, 9), ("NOISE", 9, 12)].countP (coversPt 6)) = 1 :=
  (load_rhythm_ann_intervals_tile [3, 5, 9] ["(AFIB", "x", "(N"] 12
    [("NOISE", 0, 3), ("AFIB", 3, 9), ("N", 9, 9), ("NOISE", 9, 12)]
    (by decide) (by decide) (by decide) (by rfl)).2.2.2.2 6 (by decide)

/-! ## LTAFDB rhythm mask (`ltafdb.py` lines 308-320) -/

/-- Modelled from the spec: `generalized_intervals_intersection` from
`torch_ecg.utils.utils_interval` (that module is not included in `src/`;
only its caller is).  It intersects a list of intervals with the window
`[sf, st]`: each interval is clipped to the window and empty results are
dropped. -/
def intervalsIntersection (l : List (Nat × Nat)) (sf st : Nat) : List (Nat × Nat) :=
  (l.map (fun itv => (max itv.1 sf, min itv.2 st))).filter (fun itv => decide (itv.1 < itv.2))

/-- The interval list stored under `label` in the `ann` dictionary built by
`load_rhythm_ann` (the dictionary groups the created intervals by label,
keeping creation order). -/
def annIntervals (L : List (String × Nat × Nat)) (label : String) : List (Nat × Nat) :=
  (L.filter (fun itv => decide (itv.1 = label))).map (fun itv => itv.2)

/-- The keys of `rhythm_types_map` in insertion order. -/
def rhythmKeys : List String := rhythm_types_map.map Prod.fst

/-- The windowed annotation dictionary returned by `load_rhythm_ann` with
`rhythm_format="interval"` and `keep_original=True` (ltafdb.py lines
308-309): every label's intervals intersected with `[sf, st]`, labels with
no remaining interval dropped. -/
def rhythmAnnWindowed (L : List (String × Nat × Nat)) (sf st : Nat) :
    List (String × List (Nat × Nat)) :=
  (rhythmKeys.map (fun label => (label, intervalsIntersection (annIntervals L label) sf st))).filter
    (fun p => decide (p.2 ≠ []))

/-- Helper for the numpy slice assignment `ann[a : b] = v`, carrying the
current index. -/
def maskWriteAux (a b v : Nat) : Nat → List Nat → List Nat
  | _, [] => []
  | i, x :: rest => (if a ≤ i ∧ i < b then v else x) :: maskWriteAux a b v (i + 1) rest

/-- The numpy slice assignment `mask[a : b] = v` (with clipping at the
array bounds, as numpy slicing does). -/
def maskWrite (m : List Nat) (a b v : Nat) : List Nat :=
  maskWriteAux a b v 0 m

/-- The sequence of `(label, start, end)` writes performed by the mask loop
(ltafdb.py lines 313-315), iterating the windowed dictionary in insertion
order. -/
def rhythmMaskWrites (L : List (String × Nat × Nat)) (sf st : Nat) :
    List (String × Nat × Nat) :=
  (rhythmAnnWindowed L sf st).flatMap (fun p => p.2.map (fun itv => (p.1, itv.1, itv.2)))

/-- One mask write: `ann[itv[0] - sf : itv[1] - sf] = rhythm_types_map[rhythm]`. -/
def writeStep (sf : Nat) (m : List Nat) (w : String × Nat × Nat) : List Nat :=
  maskWrite m (w.2.1 - sf) (w.2.2 - sf) (rhythmCode w.1)

/-- The mask returned by `load_rhythm_ann` with `rhythm_format="mask"`
(ltafdb.py lines 310-315): an array of length `st - sf` filled with the
code of rhythm `N`, then one slice assignment per windowed interval. -/
def rhythmMask (L : List (String × Nat × Nat)) (sf st : Nat) : List Nat :=
  (rhythmMaskWrites L sf st).foldl (writeStep sf) (List.replicate (st - sf) (rhythmCode "N"))

theorem maskWriteAux_get (a b v : Nat) (m : List Nat) :
    ∀ i j : Nat, (maskWriteAux a b v i m).get? j =
      (m.get? j).map (fun x => if a ≤ i + j ∧ i + j < b then v else x) := by
  induction m with
  | nil => intro i j; rfl
  | cons x rest ih =>
      intro i j
      cases j with
      | zero => simp [maskWriteAux]
      | succ j =>
          rw [maskWriteAux]
          have h1 : i + 1 + j = i + (j + 1) := by omega
          simp only [List.get?_cons_succ]
          rw [ih (i + 1) j, h1]

theorem maskWrite_get (m : List Nat) (a b v j : Nat) :
    (maskWrite m a b v).get? j = (m.get? j).map (fun x => if a ≤ j ∧ j < b then v else x) := by
  rw [maskWrite, maskWriteAux_get]
  simp

theorem maskWrite_length (m : List Nat) (a b v : Nat) :
    (maskWrite m a b v).length = m.length := by
  rw [maskWrite]
  generalize 0 = i
  induction m generalizing i with
  | nil => rfl
  | cons x rest ih => rw [maskWriteAux]; simp [ih]

theorem foldl_writeStep_length (W : List (String × Nat × Nat)) (sf : Nat) :
    ∀ m : List Nat, (W.foldl (writeStep sf) m).length = m.length := by
  induction W with
  | nil => intro m; rfl
  | cons w rest ih =>
      intro m
      rw [List.foldl_cons, ih, writeStep, maskWrite_length]

theorem foldl_writeStep_untouched (W : List (String × Nat × Nat)) (sf j : Nat) :
    ∀ m : List Nat, (∀ w ∈ W, ¬(w.2.1 - sf ≤ j ∧ j < w.2.2 - sf)) →
    (W.foldl (writeStep sf) m).get? j = m.get? j := by
  induction W with
  | nil => intro m _; rfl
  | cons w rest ih =>
      intro m hnc
      rw [List.foldl_cons, ih _ (fun q hq => hnc q (List.mem_cons_of_mem _ hq))]
      rw [writeStep, maskWrite_get]
      cases m.get? j with
      | none => rfl
      | some x =>
          simp only [Option.map_some']
          rw [if_neg (hnc w (List.mem_cons_self _ _))]

theorem foldl_writeStep_value (W : List (String × Nat × Nat)) (sf j v : Nat) :
    ∀ m : List Nat, j < m.length →
    (∃ w ∈ W, w.2.1 - sf ≤ j ∧ j < w.2.2 - sf) →
    (∀ w ∈ W, (w.2.1 - sf ≤ j ∧ j < w.2.2 - sf) → rhythmCode w.1 = v) →
    (W.foldl (writeStep sf) m).get? j = some v := by
  induction W with
  | nil =>
      intro m _ hex _
      rcases hex with ⟨w, hw, _⟩
      cases hw
  | cons w rest ih =>
      intro m hj hex hsame
      rw [List.foldl_cons]
      have hlen2 : j < (writeStep sf m w).length := by
        rw [writeStep, maskWrite_length]
        exact hj
      by_cases hc : w.2.1 - sf ≤ j ∧ j < w.2.2 - sf
      · by_cases hrest : ∃ q ∈ rest, q.2.1 - sf ≤ j ∧ j < q.2.2 - sf
        · exact ih _ hlen2 hrest (fun q hq => hsame q (List.mem_cons_of_mem _ hq))
        · push_neg at hrest
          rw [foldl_writeStep_untouched rest sf j _
            (fun q hq hcq => (hrest q hq hcq.1).not_lt hcq.2)]
          rw [writeStep, maskWrite_get]
          rw [List.get?_eq_get hj]
          simp only [Option.map_some']
          rw [if_pos hc, hsame w (List.mem_cons_self _ _) hc]
      · rcases hex with ⟨q, hq, hcq⟩
        rcases List.mem_cons.mp hq with h1 | h1
        · rw [h1] at hcq; exact absurd hcq hc
        · have hstep : (writeStep sf m w).get? j = m.get? j := by
            rw [writeStep, maskWrite_get]
            cases m.get? j with
            | none => rfl
            | some x =>
                simp only [Option.map_some']
                rw [if_neg hc]
          exact ih _ hlen2 ⟨q, h1, hcq⟩ (fun q2 hq2 => hsame q2 (List.mem_cons_of_mem _ hq2))

theorem writes_mem_intro {L : List (String × Nat × Nat)} {sf st : Nat}
    {p : String × List (Nat × Nat)} {itv : Nat × Nat}
    (hp : p ∈ rhythmAnnWindowed L sf st) (hitv : itv ∈ p.2) :
    (p.1, itv.1, itv.2) ∈ rhythmMaskWrites L sf st :=
  List.mem_flatMap.mpr ⟨p, hp, List.mem_map_of_mem _ hitv⟩

theorem windowed_bounds {L : List (String × Nat × Nat)} {sf st : Nat}
    {p : String × List (Nat × Nat)} (hp : p ∈ rhythmAnnWindowed L sf st) :
    ∀ itv ∈ p.2, sf ≤ itv.1 ∧ itv.1 < itv.2 ∧ itv.2 ≤ st ∧
      ∃ o ∈ L, o.1 = p.1 ∧ itv.1 = max o.2.1 sf ∧ itv.2 = min o.2.2 st := by
  intro itv hitv
  rcases List.mem_filter.mp hp with ⟨hmap, _⟩
  rcases List.mem_map.mp hmap with ⟨label, _, heq⟩
  rw [← heq] at hitv
  rcases List.mem_filter.mp hitv with ⟨hmem2, hlt⟩
  rcases List.mem_map.mp hmem2 with ⟨ab, hab, heq2⟩
  rcases List.mem_map.mp hab with ⟨o, ho, heq3⟩
  rcases List.mem_filter.mp ho with ⟨hoL, holab⟩
  have hlt2 : itv.1 < itv.2 := of_decide_eq_true hlt
  refine ⟨?_, hlt2, ?_, o, hoL, ?_, ?_, ?_⟩
  · rw [← heq2]
    exact le_max_right _ _
  · rw [← heq2]
    exact min_le_right _ _
  · rw [← heq]
    exact of_decide_eq_true holab
  · rw [← heq2, heq3]
  · rw [← heq2, heq3]

theorem writes_origin {L : List (String × Nat × Nat)} {sf st : Nat}
    {w : String × Nat × Nat} (hw : w ∈ rhythmMaskWrites L sf st) :
    sf ≤ w.2.1 ∧ w.2.1 < w.2.2 ∧ w.2.2 ≤ st ∧
      ∃ o ∈ L, o.1 = w.1 ∧ w.2.1 = max o.2.1 sf ∧ w.2.2 = min o.2.2 st := by
  rcases List.mem_flatMap.mp hw with ⟨p, hp, hmem⟩
  rcases List.mem_map.mp hmem with ⟨itv, hitv, heq⟩
  rcases windowed_bounds hp itv hitv with ⟨h1, h2, h3, o, ho, hlab, ha, hb⟩
  rw [← heq]
  exact ⟨h1, h2, h3, o, ho, hlab, ha, hb⟩

theorem two_le_length_of_mem {α : Type} {l : List α} {a b : α}
    (ha : a ∈ l) (hb : b ∈ l) (hne : a ≠ b) : 2 ≤ l.length := by
  cases l with
  | nil => cases ha
  | cons c rest =>
      rcases List.mem_cons.mp ha with h1 | h1
      · rcases List.mem_cons.mp hb with h2 | h2
        · exact absurd (h1.trans h2.symm) hne
        · have h3 := List.length_pos.mpr (List.ne_nil_of_mem h2)
          simp only [List.length_cons]
          omega
      · have h3 := List.length_pos.mpr (List.ne_nil_of_mem h1)
        simp only [List.length_cons]
        omega

theorem countP_one_unique {l : List (String × Nat × Nat)} {p : (String × Nat × Nat) → Bool}
    (h : l.countP p = 1) {a b : String × Nat × Nat} (ha : a ∈ l) (hb : b ∈ l)
    (hpa : p a = true) (hpb : p b = true) : a = b := by
  by_contra hne
  have h2 : 2 ≤ (l.filter p).length :=
    two_le_length_of_mem (List.mem_filter.mpr ⟨ha, hpa⟩) (List.mem_filter.mpr ⟨hb, hpb⟩) hne
  rw [List.countP_eq_length_filter] at h
  omega

/-- Claim C2: with `rhythm_format="mask"`, `load_rhythm_ann` returns an
array of length `sampto - sampfrom` in which position `i` holds
`rhythm_types_map[k]` whenever an interval of class `k` returned by the
`"interval"` format with `keep_original=True` contains the sample
`sampfrom + i` (read half-open), and holds the code of rhythm `N` at every
position covered by no returned interval. -/
theorem load_rhythm_ann_mask_spec (samples : List Nat) (aux_note : List String)
    (sigLen sf st : Nat) (L : List (String × Nat × Nat))
    (hlen : samples.length = aux_note.length)
    (hsorted : samples.Sorted (· ≤ ·))
    (hmax : ∀ s ∈ samples, s ≤ sigLen)
    (hL : loadRhythmIntervals samples aux_note sigLen = some L)
    (hst : st ≤ sigLen) :
    (rhythmMask L sf st).length = st - sf ∧
    ∀ i, i < st - sf →
      (∀ p ∈ rhythmAnnWindowed L sf st, ∀ itv ∈ p.2,
        itv.1 ≤ sf + i → sf + i < itv.2 →
        (rhythmMask L sf st).get? i = some (rhythmCode p.1)) ∧
      ((∀ p ∈ rhythmAnnWindowed L sf st, ∀ itv ∈ p.2, ¬(itv.1 ≤ sf + i ∧ sf + i < itv.2)) →
        (rhythmMask L sf st).get? i = some (rhythmCode "N")) := by
  obtain ⟨hchain, hwf, _⟩ :=
    loadRhythmIntervals_chained samples aux_note sigLen L hlen hsorted hmax hL
  constructor
  · rw [rhythmMask, foldl_writeStep_length, List.length_replicate]
  intro i hi
  have hisf : sf + i < sigLen := by omega
  have hcount : L.countP (coversPt (sf + i)) = 1 :=
    chainedFrom_countP_one hchain hwf (Nat.zero_le _) hisf
  constructor
  · intro p hp itv hitv h1 h2
    rcases windowed_bounds hp itv hitv with ⟨hsfle, hltv, hstle, o, ho, hlab, ha, hb⟩
    have hocov : coversPt (sf + i) o = true := by
      rw [coversPt]
      simp only [Bool.and_eq_true, decide_eq_true_eq]
      constructor
      · have := le_max_left o.2.1 sf
        omega
      · have := min_le_left o.2.2 st
        omega
    rw [rhythmMask]
    apply foldl_writeStep_value
    · rw [List.length_replicate]
      exact hi
    · refine ⟨(p.1, itv.1, itv.2), writes_mem_intro hp hitv, ?_, ?_⟩
      · show itv.1 - sf ≤ i
        omega
      · show i < itv.2 - sf
        omega
    · intro w hw hcw
      rcases writes_origin hw with ⟨hw1, hw2, hw3, o2, ho2, hlab2, ha2, hb2⟩
      have ho2cov : coversPt (sf + i) o2 = true := by
        rw [coversPt]
        simp only [Bool.and_eq_true, decide_eq_true_eq]
        constructor
        · have := le_max_left o2.2.1 sf
          rcases hcw with ⟨hcw1, _⟩
          omega
        · have := min_le_left o2.2.2 st
          rcases hcw with ⟨_, hcw2⟩
          omega
      have := countP_one_unique hcount ho2 ho ho2cov hocov
      rw [← hlab, ← this, hlab2]
  · intro hnone
    rw [rhythmMask, foldl_writeStep_untouched]
    · rw [List.get?_eq_get (by rw [List.length_replicate]; exact hi)]
      simp
    · intro w hw hcw
      rcases List.mem_flatMap.mp hw with ⟨p, hp, hmem⟩
      rcases List.mem_map.mp hmem with ⟨itv, hitv, heq⟩
      rcases windowed_bounds hp itv hitv with ⟨hsfle, hltv, hstle, _⟩
      apply hnone p hp itv hitv
      rw [← heq] at hcw
      have hcw1 : itv.1 - sf ≤ i := hcw.1
      have hcw2 : i < itv.2 - sf := hcw.2
      constructor
      · show itv.1 ≤ sf + i
        omega
      · show sf + i < itv.2
        omega

/-- Witness for C2 on the concrete record of the C8 witness, windowed to
`[2, 11)`: sample 6 (mask position 4) lies in the `AFIB` interval `[3, 9)`,
so the mask holds the `AFIB` code there. -/
theorem load_rhythm_ann_mask_spec_witness :
    (rhythmMask [("NOISE", 0, 3), ("AFIB", 3, 9), ("N", 9, 9), ("NOISE", 9, 12)] 2 11).get? 4 =
      some (rhythmCode "AFIB") :=
  ((load_rhythm_ann_mask_spec [3, 5, 9] ["(AFIB", "x", "(N"] 12 2 11
    [("NOISE", 0, 3), ("AFIB", 3, 9), ("N", 9, 9), ("NOISE", 9, 12)]
    (by decide) (by decide) (by decide) (by rfl) (by decide)).2 4 (by decide)).1
    ("AFIB", [(3, 9)]) (by decide) (3, 9) (by decide) (by decide) (by decide)

/-! ## LTAFDB rhythm-annotation caching (`ltafdb.py` lines 284-306)

`load_rhythm_ann` keeps a per-record cache file
`db_dir / (rec + "_ann.json")`: when it exists the interval dictionary is
read from it, otherwise the dictionary is computed from the `.atr`
annotation file and written to it.  The file is modelled as
`Option (List (String × Nat × Nat))`: `none` when absent, `some L` when it
holds the serialized full-record intervals `L`. -/

/-- Content of the cache file after a call to `load_rhythm_ann` (outer
`Option`: `none` when the call raises, e.g. on an empty annotation
file). -/
def loadRhythmAnnFile (file : Option (List (String × Nat × Nat)))
    (samples : List Nat) (aux_note : List String) (sigLen : Nat) :
    Option (Option (List (String × Nat × Nat))) :=
  match file with
  | some L => some (some L)
  | none => (loadRhythmIntervals samples aux_note sigLen).map some

/-- The windowed interval dictionary returned by `load_rhythm_ann` with
`rhythm_format="interval"` and `keep_original=True`, starting from the
cache-file state `file`. -/
def loadRhythmAnnResult (file : Option (List (String × Nat × Nat)))
    (samples : List Nat) (aux_note : List String) (sigLen sf st : Nat) :
    Option (List (String × List (Nat × Nat))) :=
  match file with
  | some L => some (rhythmAnnWindowed L sf st)
  | none => (loadRhythmIntervals samples aux_note sigLen).map (fun L => rhythmAnnWindowed L sf st)

/-- Claim C5 counterexample: the claim states `load_rhythm_ann` performs no
caching and creates no files in the database directory.  On the concrete
record of the C8 witness, calling it with no cache file present leaves the
file `rec_ann.json` in the database directory holding the full-record
intervals — the directory is changed. -/
theorem load_rhythm_ann_no_caching_counterexample :
    loadRhythmAnnFile none [3, 5, 9] ["(AFIB", "x", "(N"] 12 =
      some (some [("NOISE", 0, 3), ("AFIB", 3, 9), ("N", 9, 9), ("NOISE", 9, 12)]) ∧
    some [("NOISE", 0, 3), ("AFIB", 3, 9), ("N", 9, 9), ("NOISE", 9, 12)] ≠
      (none : Option (List (String × Nat × Nat))) := by
  exact ⟨rfl, by simp⟩

/-- Claim C5 as amended: `load_rhythm_ann` caches.  When the cache file is
absent, the call computes the full-record intervals from the `.atr`
annotations and writes them to `rec_ann.json`; when the cache file is
present, the call leaves it unchanged and computes the windowed result from
the cached intervals alone — the `.atr` contents are not consulted. -/
theorem load_rhythm_ann_cache_behaviour
    (samples samples2 : List Nat) (aux_note aux_note2 : List String)
    (sigLen sf st : Nat) (L : List (String × Nat × Nat))
    (hbuild : loadRhythmIntervals samples aux_note sigLen = some L) :
    loadRhythmAnnFile none samples aux_note sigLen = some (some L) ∧
    loadRhythmAnnResult none samples aux_note sigLen sf st =
      some (rhythmAnnWindowed L sf st) ∧
    loadRhythmAnnFile (some L) samples2 aux_note2 sigLen = some (some L) ∧
    loadRhythmAnnResult (some L) samples2 aux_note2 sigLen sf st =
      some (rhythmAnnWindowed L sf st) := by
  refine ⟨?_, ?_, rfl, rfl⟩
  · rw [loadRhythmAnnFile, hbuild]
    rfl
  · rw [loadRhythmAnnResult, hbuild]
    rfl

/-- Witness for the amended C5 at the concrete record of the C8 witness. -/
theorem load_rhythm_ann_cache_behaviour_witness :
    loadRhythmAnnFile (some [("NOISE", 0, 3), ("AFIB", 3, 9), ("N", 9, 9), ("NOISE", 9, 12)])
        [] [] 12 =
      some (some [("NOISE", 0, 3), ("AFIB", 3, 9), ("N", 9, 9), ("NOISE", 9, 12)]) :=
  (load_rhythm_ann_cache_behaviour [3, 5, 9] [] ["(AFIB", "x", "(N"] [] 12 2 11
    [("NOISE", 0, 3), ("AFIB", 3, 9), ("N", 9, 9), ("NOISE", 9, 12)] (by rfl)).2.2.1

/-! ## LTAFDB beat annotations (`ltafdb.py` lines 322-388) -/

/-- The dataclass `BeatAnn` (base.py lines 1383-1402): one sample index
paired with one beat symbol. -/
structure BeatAnn where
  index : Nat
  symbol : String
deriving DecidableEq

/-- The beat types recognised by `LTAFDB` (ltafdb.py lines 122-128);
the annotation symbols `"` and `+` are not beat types. -/
def beat_types : List String := ["A", "N", "Q", "V"]

/-- Embedding of `LTAFDB.load_beat_ann` with `beat_format="beat"`
(ltafdb.py lines 357-388).  The third-party `wfdb.rdann` windowing is
modelled as keeping the annotations with sample index in the requested
window; the function then buckets the samples by symbol for the four beat
types (skipping every other symbol), subtracts `sampfrom` unless
`keep_original`, and flattens the buckets into `BeatAnn` values. -/
def loadBeatAnn (anns : List (Nat × String)) (sampfrom sampto : Option Nat)
    (keep_original : Bool) : List BeatAnn :=
  let sf := sampfrom.getD 0
  let windowed := anns.filter
    (fun a => decide (sf ≤ a.1) &&
      (match sampto with | none => true | some st => decide (a.1 < st)))
  let offset := match sampfrom with
    | some v => if keep_original then 0 else v
    | none => 0
  let dict := beat_types.map
    (fun bt => (bt, ((windowed.filter (fun a => decide (a.2 = bt))).map Prod.fst).map
      (fun i => i - offset)))
  dict.flatMap (fun p => p.2.map (fun i => BeatAnn.mk i p.1))

/-- Claim C6: every element returned by `load_beat_ann` with
`beat_format="beat"` is a `BeatAnn` pairing exactly one sample index with
one of the four beat-type symbols `A`, `N`, `Q`, `V`; it stems from an
annotation in the window bearing that symbol (index shifted by `sampfrom`
unless `keep_original`), so annotations with any other symbol are
excluded. -/
theorem load_beat_ann_beat_types_only (anns : List (Nat × String))
    (sampfrom sampto : Option Nat) (keep_original : Bool) :
    ∀ b ∈ loadBeatAnn anns sampfrom sampto keep_original,
      b.symbol ∈ beat_types ∧
      ∃ s, (s, b.symbol) ∈ anns ∧ sampfrom.getD 0 ≤ s ∧
        b.index = s - (match sampfrom with
          | some v => if keep_original then 0 else v
          | none => 0) := by
  intro b hb
  rw [loadBeatAnn.eq_def] at hb
  simp only [] at hb
  rcases List.mem_flatMap.mp hb with ⟨p, hp, hmem⟩
  rcases List.mem_map.mp hmem with ⟨i, hi, heqb⟩
  rcases List.mem_map.mp hp with ⟨bt, hbt, heqp⟩
  rw [← heqp] at hi heqb
  rcases List.mem_map.mp hi with ⟨s, hs, heqi⟩
  rcases List.mem_map.mp hs with ⟨a, ha, heqs⟩
  rcases List.mem_filter.mp ha with ⟨haw, hsym⟩
  rcases List.mem_filter.mp haw with ⟨hanns, hwin⟩
  have hsymbt : a.2 = bt := of_decide_eq_true hsym
  have hbsym : b.symbol = bt := by rw [← heqb]
  have hbidx : b.index = i := by rw [← heqb]
  have hsf : sampfrom.getD 0 ≤ a.1 := of_decide_eq_true (Bool.and_elim_left hwin)
  refine ⟨?_, a.1, ?_, hsf, ?_⟩
  · rw [hbsym]
    exact hbt
  · rw [hbsym, ← hsymbt]
    exact hanns
  · rw [hbidx, ← heqi, ← heqs]

/-- Witness for C6: annotations `(5, N)`, `(7, +)`, `(9, V)` with no
windowing; the returned element `BeatAnn 9 V` carries a beat-type symbol
paired with its sample. -/
theorem load_beat_ann_beat_types_only_witness :
    BeatAnn.mk 9 "V" ∈ loadBeatAnn [(5, "N"), (7, "+"), (9, "V")] none none false ∧
    (BeatAnn.mk 9 "V").symbol ∈ beat_types :=
  have hmem : BeatAnn.mk 9 "V" ∈ loadBeatAnn [(5, "N"), (7, "+"), (9, "V")] none none false := by
    decide
  ⟨hmem, (load_beat_ann_beat_types_only [(5, "N"), (7, "+"), (9, "V")] none none false
    (BeatAnn.mk 9 "V") hmem).1⟩

/-! ## PhysioNetDataBase.load_data (`base.py` lines 570-685)

The wfdb record (third-party) is modelled by its physical and digital
signals as functions of (time, channel); `wfdb.rdrecord` with `sampfrom`,
`sampto` and `channels` yields the time-major (`lead_last`) matrix of the
selected window and channels.  `scipy.signal.resample_poly(data, ...,
axis=0)` (third party) is modelled as an opaque per-column function `f`,
applied when the requested frequency differs from the record's (`rs`). -/

/-- A matrix as a list of rows; transposition reads off the columns.  Used
for `data.T` (base.py line 679). -/
def transposeM (m : List (List Int)) : List (List Int) :=
  (List.range (m.headD []).length).map (fun j => m.map (fun r => r.getD j 0))

/-- The `lead_last` matrix returned by `wfdb.rdrecord` for the window
`[sf, st)` and the selected channels (third-party model). -/
def rdrecordRows (sig : Nat → Nat → Int) (sf st : Nat) (channels : List Nat) :
    List (List Int) :=
  (List.range (st - sf)).map (fun t => channels.map (fun c => sig (sf + t) c))

/-- The signal selected by the `units` argument (base.py lines 662-667):
digital for `None`, physical (in mV) for `"mV"`, physical times 1000 for
the μV aliases. -/
def sigOfUnits (psig dsig : Nat → Nat → Int) (units : Option String) : Nat → Nat → Int :=
  match units with
  | none => dsig
  | some u => if u = "mV" then psig else fun t c => 1000 * psig t c

/-- Result of `load_data`: a matrix, or a flat vector for
`data_format="flat"`. -/
inductive LoadedData where
  | mat : List (List Int) → LoadedData
  | vec : List Int → LoadedData
deriving DecidableEq

/-- Embedding of `PhysioNetDataBase.load_data` (base.py lines 570-685):
normalize `leads` (`None` means all leads), select the channel indices
`[all_leads.index(ld) for ld in _leads]`, read the `lead_last` window,
resample along axis 0 when requested, then transpose for
`channel_first`/`lead_first`, keep for `channel_last`/`lead_last`, or
flatten for a single-lead `flat`/`plain`. -/
def normalizeLeads (all_leads : List String) (leads : Option (List String)) : List String :=
  match leads with
  | none => all_leads
  | some l => l

/-- The `lead_last` data matrix assembled by `load_data` before the final
format step: channel selection (base.py line 657), windowed read, unit
selection, and the conditional axis-0 resampling (base.py lines 669-676,
modelled by the opaque per-column `f` applied when `rs`). -/
def loadDataMatrix (psig dsig : Nat → Nat → Int) (all_leads : List String)
    (leads : Option (List String)) (sf st : Nat) (units : Option String)
    (rs : Bool) (f : List Int → List Int) : List (List Int) :=
  let channels := (normalizeLeads all_leads leads).map (fun ld => all_leads.indexOf ld)
  let dataU := rdrecordRows (sigOfUnits psig dsig units) sf st channels
  if rs then transposeM ((transposeM dataU).map f) else dataU

def loadData (psig dsig : Nat → Nat → Int) (all_leads : List String)
    (leads : Option (List String)) (sf st : Nat) (fmt : String) (units : Option String)
    (rs : Bool) (f : List Int → List Int) : Option LoadedData :=
  let data1 := loadDataMatrix psig dsig all_leads leads sf st units rs f
  if fmt = "channel_first" ∨ fmt = "lead_first" then some (LoadedData.mat (transposeM data1))
  else if fmt = "channel_last" ∨ fmt = "lead_last" then some (LoadedData.mat data1)
  else if (fmt = "flat" ∨ fmt = "plain") ∧ (normalizeLeads all_leads leads).length = 1 then
    some (LoadedData.vec data1.flatten)
  else none

/-- The signal of one channel over the window, in the requested units and
frequency: what one row of a `channel_first` result should hold. -/
def leadSignal (sig : Nat → Nat → Int) (sf st : Nat) (rs : Bool) (f : List Int → List Int)
    (c : Nat) : List Int :=
  let base := (List.range (st - sf)).map (fun t => sig (sf + t) c)
  if rs then f base else base

theorem rangeMap_getD (l : List Int) :
    (List.range l.length).map (fun j => l.getD j 0) = l := by
  induction l with
  | nil => rfl
  | cons x rest ih =>
      rw [List.length_cons, List.range_succ_eq_map, List.map_cons, List.map_map]
      have hcomp : ((fun j => (x :: rest).getD j 0) ∘ Nat.succ) = fun j => rest.getD j 0 := by
        funext j
        rfl
      rw [hcomp, ih]
      rfl

theorem transposeM_length (m : List (List Int)) :
    (transposeM m).length = (m.headD []).length := by
  rw [transposeM, List.length_map, List.length_range]

theorem transposeM_get (m : List (List Int)) (j : Nat) (hj : j < (m.headD []).length) :
    (transposeM m)[j]? = some (m.map (fun r => r.getD j 0)) := by
  rw [transposeM, List.getElem?_map, List.getElem?_range hj, Option.map_some']

theorem transposeM_headD_length {m : List (List Int)} {w : Nat} (hm : m ≠ [])
    (hw : ∀ r ∈ m, r.length = w) : (m.headD []).length = w := by
  cases m with
  | nil => exact absurd rfl hm
  | cons r rest => exact hw r (List.mem_cons_self _ _)

theorem transposeM_transposeM {m : List (List Int)} {w : Nat} (hm : m ≠ [])
    (hw : ∀ r ∈ m, r.length = w) (hpos : 0 < w) :
    transposeM (transposeM m) = m := by
  have hhead : (m.headD []).length = w := transposeM_headD_length hm hw
  have hTlen : (transposeM m).length = w := by rw [transposeM_length, hhead]
  have hThead : ((transposeM m).headD []).length = m.length := by
    have h0 : (transposeM m)[0]? = some (m.map (fun r => r.getD 0 0)) :=
      transposeM_get m 0 (by omega)
    have hne : transposeM m ≠ [] := by
      intro h
      rw [h] at hTlen
      simp at hTlen
      omega
    cases hT : transposeM m with
    | nil => exact absurd hT hne
    | cons r rest =>
        rw [hT] at h0
        simp only [List.getElem?_cons_zero] at h0
        injection h0 with h1
        rw [List.headD_cons, h1, List.length_map]
  apply List.ext_get?_iff.mpr
  intro n
  rw [List.get?_eq_getElem?, List.get?_eq_getElem?]
  by_cases hn : n < m.length
  · rw [transposeM_get (transposeM m) n (by rw [hThead]; exact hn)]
    have hrow : (transposeM m).map (fun r => r.getD n 0) =
        (List.range w).map (fun j => (m.get ⟨n, hn⟩).getD j 0) := by
      rw [transposeM, List.map_map, hhead]
      apply List.map_congr_left
      intro j _
      simp only [Function.comp]
      have hmap : (m.map (fun r => r.getD j 0))[n]? = some ((m.get ⟨n, hn⟩).getD j 0) := by
        rw [List.getElem?_map, List.getElem?_eq_getElem hn]
        rfl
      rw [List.getD_eq_getElem?_getD, hmap]
      rfl
    have hlen2 : (m.get ⟨n, hn⟩).length = w := hw _ (List.get_mem m n hn)
    have hR : (List.range w).map (fun j => (m.get ⟨n, hn⟩).getD j 0) = m.get ⟨n, hn⟩ := by
      rw [← hlen2]
      exact rangeMap_getD _
    rw [hrow, hR, List.getElem?_eq_getElem hn]
    rfl
  · have h1 : (transposeM (transposeM m))[n]? = none := by
      apply List.getElem?_eq_none
      rw [transposeM_length, hThead]
      omega
    have h2 : m[n]? = none := List.getElem?_eq_none (by omega)
    rw [h1, h2]

theorem rdrecordRows_ne_nil (sig : Nat → Nat → Int) (sf st : Nat) (channels : List Nat)
    (hwin : sf < st) : rdrecordRows sig sf st channels ≠ [] := by
  rw [rdrecordRows]
  intro h
  have := congrArg List.length h
  simp at this
  omega

theorem rdrecordRows_rect (sig : Nat → Nat → Int) (sf st : Nat) (channels : List Nat) :
    ∀ r ∈ rdrecordRows sig sf st channels, r.length = channels.length := by
  intro r hr
  rcases List.mem_map.mp hr with ⟨t, _, heq⟩
  rw [← heq, List.length_map]

theorem transposeM_rdrecord_get (sig : Nat → Nat → Int) (sf st : Nat) (channels : List Nat)
    (i c : Nat) (hwin : sf < st) (hi : i < channels.length) (hc : channels[i]? = some c) :
    (transposeM (rdrecordRows sig sf st channels))[i]? =
      some ((List.range (st - sf)).map (fun t => sig (sf + t) c)) := by
  have hhead : ((rdrecordRows sig sf st channels).headD []).length = channels.length :=
    transposeM_headD_length (rdrecordRows_ne_nil sig sf st channels hwin)
      (rdrecordRows_rect sig sf st channels)
  rw [transposeM_get _ i (by rw [hhead]; exact hi)]
  congr 1
  rw [rdrecordRows, List.map_map]
  apply List.map_congr_left
  intro t _
  simp only [Function.comp]
  rw [List.getD_eq_getElem?_getD, List.getElem?_map, hc, Option.map_some']
  rfl

theorem loadData_channel_last (psig dsig : Nat → Nat → Int) (all_leads : List String)
    (leads : Option (List String)) (sf st : Nat) (units : Option String)
    (rs : Bool) (f : List Int → List Int) :
    loadData psig dsig all_leads leads sf st "channel_last" units rs f =
      some (LoadedData.mat (loadDataMatrix psig dsig all_leads leads sf st units rs f)) := by
  rw [loadData]
  simp

theorem loadData_channel_first (psig dsig : Nat → Nat → Int) (all_leads : List String)
    (leads : Option (List String)) (sf st : Nat) (units : Option String)
    (rs : Bool) (f : List Int → List Int) :
    loadData psig dsig all_leads leads sf st "channel_first" units rs f =
      some (LoadedData.mat
        (transposeM (loadDataMatrix psig dsig all_leads leads sf st units rs f))) := by
  rw [loadData]
  simp

theorem loadDataMatrix_row (psig dsig : Nat → Nat → Int) (all_leads : List String)
    (sf st : Nat) (units : Option String) (rs : Bool) (f : List Int → List Int) (flen : Nat)
    (hnodup : all_leads.Nodup) (hwin : sf < st)
    (hf : ∀ l : List Int, (f l).length = flen) (hflen : 0 < flen)
    (i : Nat) (hi : i < all_leads.length) :
    (transposeM (loadDataMatrix psig dsig all_leads none sf st units rs f))[i]? =
      some (leadSignal (sigOfUnits psig dsig units) sf st rs f i) := by
  have hchlen : ((normalizeLeads all_leads none).map (fun ld => all_leads.indexOf ld)).length =
      all_leads.length := by
    rw [normalizeLeads, List.length_map]
  have hchsome :
      ((normalizeLeads all_leads none).map (fun ld => all_leads.indexOf ld))[i]? = some i := by
    rw [normalizeLeads, List.getElem?_map, List.getElem?_eq_getElem hi, Option.map_some']
    congr 1
    exact List.indexOf_getElem hnodup i hi
  cases rs with
  | false =>
      simp only [loadDataMatrix, Bool.false_eq_true, if_false]
      rw [transposeM_rdrecord_get (sigOfUnits psig dsig units) sf st _ i i hwin
        (hchlen ▸ hi) hchsome]
      rw [leadSignal]
      simp
  | true =>
      simp only [loadDataMatrix, if_true]
      have hTlen : (transposeM (rdrecordRows (sigOfUnits psig dsig units) sf st
          ((normalizeLeads all_leads none).map (fun ld => all_leads.indexOf ld)))).length =
          all_leads.length := by
        rw [transposeM_length, transposeM_headD_length
          (rdrecordRows_ne_nil _ sf st _ hwin) (rdrecordRows_rect _ sf st _), hchlen]
      rw [transposeM_transposeM (w := flen)]
      · rw [List.getElem?_map, transposeM_rdrecord_get (sigOfUnits psig dsig units) sf st _ i i
          hwin (hchlen ▸ hi) hchsome, Option.map_some']
        rw [leadSignal]
        simp
      · intro h
        have h2 := congrArg List.length h
        rw [List.length_map, hTlen] at h2
        simp only [List.length_nil] at h2
        omega
      · intro r hr
        rcases List.mem_map.mp hr with ⟨col, _, heq⟩
        rw [← heq, hf]
      · exact hflen

theorem loadDataMatrix_single (psig dsig : Nat → Nat → Int) (all_leads : List String)
    (sf st : Nat) (units : Option String) (rs : Bool) (f : List Int → List Int) (flen : Nat)
    (hwin : sf < st) (hf : ∀ l : List Int, (f l).length = flen) (hflen : 0 < flen)
    (ld : String) (c : Nat) (hld : all_leads.indexOf ld = c) :
    transposeM (loadDataMatrix psig dsig all_leads (some [ld]) sf st units rs f) =
      [leadSignal (sigOfUnits psig dsig units) sf st rs f c] := by
  have hch : (normalizeLeads all_leads (some [ld])).map (fun x => all_leads.indexOf x) = [c] := by
    rw [normalizeLeads]
    simp [hld]
  have hbase : transposeM (rdrecordRows (sigOfUnits psig dsig units) sf st [c]) =
      [(List.range (st - sf)).map (fun t => sigOfUnits psig dsig units (sf + t) c)] := by
    have h1 : ((rdrecordRows (sigOfUnits psig dsig units) sf st [c]).headD []).length = 1 :=
      transposeM_headD_length (rdrecordRows_ne_nil _ sf st [c] hwin)
        (rdrecordRows_rect _ sf st [c])
    rw [transposeM, h1]
    rw [show List.range 1 = [0] from rfl, List.map_cons, List.map_nil]
    congr 1
    rw [rdrecordRows, List.map_map]
    apply List.map_congr_left
    intro t _
    rfl
  cases rs with
  | false =>
      simp only [loadDataMatrix, Bool.false_eq_true, if_false, hch]
      rw [hbase, leadSignal]
      simp
  | true =>
      simp only [loadDataMatrix, if_true, hch]
      rw [hbase, List.map_cons, List.map_nil]
      rw [transposeM_transposeM (w := flen) (by simp) ?_ hflen]
      · rw [leadSignal]
        simp
      · intro r hr
        rcases List.mem_cons.mp hr with h | h
        · rw [h, hf]
        · cases h

/-- Claim C7: with identical remaining arguments, `load_data` with
`data_format="channel_first"` returns the transpose of the
`data_format="channel_last"` result; with `leads=None`, row `i` of the
channel-first result is the signal of lead `all_leads[i]`; and loading the
single lead `all_leads[i]` returns exactly that one channel of the
multi-lead result. -/
theorem load_data_format_relations (psig dsig : Nat → Nat → Int) (all_leads : List String)
    (sf st : Nat) (units : Option String) (rs : Bool) (f : List Int → List Int) (flen : Nat)
    (hnodup : all_leads.Nodup) (hwin : sf < st)
    (hf : ∀ l : List Int, (f l).length = flen) (hflen : 0 < flen) :
    ∃ m : List (List Int),
      loadData psig dsig all_leads none sf st "channel_last" units rs f =
        some (LoadedData.mat m) ∧
      loadData psig dsig all_leads none sf st "channel_first" units rs f =
        some (LoadedData.mat (transposeM m)) ∧
      (∀ i, i < all_leads.length →
        (transposeM m)[i]? =
          some (leadSignal (sigOfUnits psig dsig units) sf st rs f i)) ∧
      (∀ i, (hi : i < all_leads.length) →
        loadData psig dsig all_leads (some [all_leads.get ⟨i, hi⟩]) sf st "channel_first"
            units rs f =
          some (LoadedData.mat [leadSignal (sigOfUnits psig dsig units) sf st rs f i])) := by
  refine ⟨loadDataMatrix psig dsig all_leads none sf st units rs f,
    loadData_channel_last psig dsig all_leads none sf st units rs f,
    loadData_channel_first psig dsig all_leads none sf st units rs f,
    fun i hi => loadDataMatrix_row psig dsig all_leads sf st units rs f flen
      hnodup hwin hf hflen i hi,
    fun i hi => ?_⟩
  rw [loadData_channel_first]
  rw [loadDataMatrix_single psig dsig all_leads sf st units rs f flen hwin hf hflen
    (all_leads.get ⟨i, hi⟩) i (by simpa using List.indexOf_getElem hnodup i hi)]

/-- Witness for C7: a two-lead record over the window `[0, 2)` with
resampling to a single sample per lead. -/
theorem load_data_format_relations_witness :
    ∃ m : List (List Int),
      loadData (fun t c => Int.ofNat (10 * t + c)) (fun t c => Int.ofNat (10 * t + c))
          ["I", "II"] none 0 2 "channel_last" (some "mV") true (fun _ => [5]) =
        some (LoadedData.mat m) ∧
      loadData (fun t c => Int.ofNat (10 * t + c)) (fun t c => Int.ofNat (10 * t + c))
          ["I", "II"] none 0 2 "channel_first" (some "mV") true (fun _ => [5]) =
        some (LoadedData.mat (transposeM m)) ∧
      (∀ i, i < (["I", "II"] : List String).length →
        (transposeM m)[i]? =
          some (leadSignal (sigOfUnits (fun t c => Int.ofNat (10 * t + c))
            (fun t c => Int.ofNat (10 * t + c)) (some "mV")) 0 2 true (fun _ => [5]) i)) ∧
      (∀ i, (hi : i < (["I", "II"] : List String).length) →
        loadData (fun t c => Int.ofNat (10 * t + c)) (fun t c => Int.ofNat (10 * t + c))
            ["I", "II"] (some [(["I", "II"] : List String).get ⟨i, hi⟩]) 0 2 "channel_first"
            (some "mV") true (fun _ => [5]) =
          some (LoadedData.mat [leadSignal (sigOfUnits (fun t c => Int.ofNat (10 * t + c))
            (fun t c => Int.ofNat (10 * t + c)) (some "mV")) 0 2 true (fun _ => [5]) i])) :=
  load_data_format_relations (fun t c => Int.ofNat (10 * t + c))
    (fun t c => Int.ofNat (10 * t + c)) ["I", "II"] 0 2 (some "mV") true (fun _ => [5]) 1
    (by decide) (by decide) (fun _ => rfl) (by decide)

end TorchEcg
